import Mathlib

/-!
# Verification of the ball-sort solver (state model and breadth-first search engine)

Shallow embedding of the solver module of the ball-sort-solver repository
(`State` class and `solve` function).  Containers ("boxes") are lists of
colors, stacked bottom-to-top (the *top* ball of a box is the *last* list
element, matching `box[box.length - 1]` in the source).

Modelling conventions:
* JavaScript strings are modelled as `List Char`.  `JSON.stringify` on an
  array of strings is injective, and the program only ever compares the
  serialized canonical keys for equality, so a canonical key is modelled as
  the sorted list of per-box content strings rather than its JSON
  serialization.
* `Array.prototype.sort()` sorts strings in lexicographic (UTF-16 code unit)
  order; this coincides with the lexicographic `LinearOrder` on `List Char`.
  Since a total linear order has a unique sorted permutation, the sorting
  algorithm itself is irrelevant; we use `List.insertionSort`.
* The spread copy `[...box]` is the identity on immutable list values.
* Wall-clock statistics (`totalTime`) and the progress callback / cooperative
  yielding (`await`, `console.log`) have no observable effect on the computed
  result and are not modelled.
-/

/-- The fixed 15-color enumeration of the solver (`type Color`). -/
inductive Color where
  | Re | Or | Ye | LG | BG | DG | Cy | LB | DB | Pu | Ma | Pi | Wh | Gr | Bl
deriving DecidableEq, Repr, Fintype

/-- The two-character string code of each color, as written in the source. -/
def Color.chars : Color → List Char
  | .Re => ['R', 'e']
  | .Or => ['O', 'r']
  | .Ye => ['Y', 'e']
  | .LG => ['L', 'G']
  | .BG => ['B', 'G']
  | .DG => ['D', 'G']
  | .Cy => ['C', 'y']
  | .LB => ['L', 'B']
  | .DB => ['D', 'B']
  | .Pu => ['P', 'u']
  | .Ma => ['M', 'a']
  | .Pi => ['P', 'i']
  | .Wh => ['W', 'h']
  | .Gr => ['G', 'r']
  | .Bl => ['B', 'l']

/-- All fifteen colors, in the order of the `validColors` set literal. -/
def allColors : List Color :=
  [.Re, .Or, .Ye, .LG, .BG, .DG, .Cy, .LB, .DB, .Pu, .Ma, .Pi, .Wh, .Gr, .Bl]

/-- A move: ordered pair of 0-based box indices (`interface Move`). -/
structure Move where
  fromBoxNumber : Nat
  toBoxNumber : Nat
deriving DecidableEq, Repr

/-- A puzzle state: the `boxes` field of the `State` class, an ordered list of
boxes, each an ordered list of balls from bottom to top. -/
abbrev State := List (List Color)

/-! ## Raw (string-level) construction and validation

At runtime a ball value is a JavaScript string; the constructor validates
each ball against the set of recognized color codes and throws
`Invalid color: ${ball}` at the first unrecognized value. -/

/-- A JavaScript string. -/
abbrev Str := List Char

/-- The contents of the `validColors` set in `State.validate`. -/
def validColorStrings : List Str := allColors.map Color.chars

/-- The message of the error thrown by `State.validate`:
`` `Invalid color: ${ball}` ``. -/
def invalidColorMsg (ball : Str) : Str :=
  "Invalid color: ".toList ++ ball

/-- The inner loop of `State.validate` over one box: the first unrecognized
ball value, if any. -/
def validateBox : List Str → Option Str
  | [] => none
  | ball :: rest =>
      if ball ∈ validColorStrings then validateBox rest else some ball

/-- The outer loop of `State.validate` over all boxes. -/
def validateBoxes : List (List Str) → Option Str
  | [] => none
  | box :: rest =>
      match validateBox box with
      | some ball => some ball
      | none => validateBoxes rest

/-- The `State` constructor at the string level: defensive-copies the input
(`boxes.map(box => [...box])`, the identity on list values) and validates,
throwing `Invalid color: ${ball}` at the first unrecognized ball. -/
def mkState (boxes : List (List Str)) : Except Str (List (List Str)) :=
  match validateBoxes boxes with
  | some ball => .error (invalidColorMsg ball)
  | none => .ok boxes

/-! ## Derived queries and the transition function -/

/-- `get solved`: every box is empty or holds exactly 4 balls of one color
(`box.every(ball => ball === box[0])`), and every color present anywhere
occurs exactly 4 times in total (the `colorCounts` check). -/
def State.solved (s : State) : Bool :=
  (s.all fun box =>
    box.isEmpty ||
      (decide (box.length = 4) && box.all fun ball => decide (ball = box.headD .Re))) &&
  (s.flatten.all fun ball => decide (s.flatten.count ball = 4))

/-- `get moves`: the nested index loops of the source, outer over the source
box index, inner over the destination box index, each ascending. -/
def State.moves (s : State) : List Move :=
  (List.range s.length).flatMap fun fromIdx =>
    if (s.getD fromIdx []).length = 0 then []
    else
      (List.range s.length).flatMap fun toIdx =>
        if fromIdx = toIdx ∨ 4 ≤ (s.getD toIdx []).length then []
        else if (s.getD toIdx []).length = 0 ∨
            (s.getD toIdx []).getLast? = (s.getD fromIdx []).getLast? then
          [⟨fromIdx, toIdx⟩]
        else []

/-- `applyMove`: copy the boxes, `pop()` the last ball of the source box and
`push` it onto the destination box.  On an empty source box, `pop()` yields
`undefined`, which cannot be represented at the `Color` level; there the
total function returns the state unchanged, and `applyMoveChecked` below
captures the real (throwing) behavior.  The two agree on every move whose
source box is non-empty, in particular on every legal move, which is the
only way `solve` ever calls `applyMove`. -/
def State.applyMove (s : State) (m : Move) : State :=
  match (s.getD m.fromBoxNumber []).getLast? with
  | none => s
  | some ball =>
      let s1 := s.set m.fromBoxNumber (s.getD m.fromBoxNumber []).dropLast
      s1.set m.toBoxNumber ((s1.getD m.toBoxNumber []) ++ [ball])

/-- `applyMove` with the runtime error behavior made explicit, for in-range
box indices: on an empty source box, `pop()` returns `undefined`, the
`undefined` value is pushed onto the destination box, and the `State`
constructor's validation then throws `Invalid color: undefined`.  On a
non-empty source box the move is performed unconditionally — validation
checks only ball colors, never box capacity — so a full destination box
silently grows to 5 balls. -/
def State.applyMoveChecked (s : State) (m : Move) : Except Str State :=
  match (s.getD m.fromBoxNumber []).getLast? with
  | none => .error (invalidColorMsg "undefined".toList)
  | some _ => .ok (s.applyMove m)

/-- The per-box content string: `box.join("")` on the 2-character codes. -/
def boxKey (box : List Color) : Str :=
  (box.map Color.chars).flatten

/-- `canonicalKey()`: the box content strings, sorted lexicographically.
(The source serializes this list with `JSON.stringify`, which is injective
on arrays of strings; only equality of keys is ever used.) -/
def State.canonicalKey (s : State) : List Str :=
  (s.map boxKey).insertionSort (· ≤ ·)

/-- `equivalentTo`: sort both states' box strings and compare the serialized
results. -/
def State.equivalentTo (a b : State) : Bool :=
  ((a.map boxKey).insertionSort (· ≤ ·)) = ((b.map boxKey).insertionSort (· ≤ ·))

/-- `fromTopDown` of the current solver: defensive-copies each box and hands
the result to the `State` constructor unchanged (no per-box reversal). -/
def fromTopDown (boxes : List (List Color)) : State :=
  boxes.map fun box => box

/-- The `State` constructor at the `Color` level: a defensive copy of the
input boxes (validation always succeeds on values of the `Color` type). -/
def stateMk (boxes : List (List Color)) : State :=
  boxes.map fun box => box

/-! ## Legal move sequences -/

/-- `LegalPath s p t`: the move list `p` leads from state `s` to state `t`,
each move drawn from `State.moves` of the state it is applied to. -/
inductive LegalPath : State → List Move → State → Prop where
  | nil (s : State) : LegalPath s [] s
  | cons {s t : State} {m : Move} {ms : List Move} :
      m ∈ State.moves s → LegalPath (State.applyMove s m) ms t →
      LegalPath s (m :: ms) t

/-! ## The breadth-first search engine -/

/-- The statistics record of `SolveResult` (wall-clock time omitted). -/
structure Stats where
  statesProcessed : Nat
  solutionLength : Nat
deriving DecidableEq, Repr

/-- The result record returned by `solve`. -/
structure SolveResult where
  finalState : State
  moves : Option (List Move)
  stats : Stats
deriving DecidableEq, Repr

/-- A frontier entry: a state together with the move path from the initial
state (`Array<[State, Move[]]>`). -/
abbrev QueueEntry := State × List Move

/-- The inner `for (const move of state.moves)` loop of `solve`: for each
move, compute the successor and its canonical key; skip if visited;
otherwise mark visited and either return the solved successor with its
extended path, or append the entry to the queue. -/
def expandMoves (st : State) (path : List Move) :
    List Move → List (List Str) → List QueueEntry →
    (List (List Str) × List QueueEntry) ⊕ (State × List Move)
  | [], visited, acc => .inl (visited, acc)
  | m :: rest, visited, acc =>
      if (st.applyMove m).canonicalKey ∈ visited then
        expandMoves st path rest visited acc
      else
        if (st.applyMove m).solved then .inr (st.applyMove m, path ++ [m])
        else
          expandMoves st path rest (visited ++ [(st.applyMove m).canonicalKey])
            (acc ++ [(st.applyMove m, path ++ [m])])

/-- The `while (queue.length > 0)` loop of `solve`, with explicit fuel.
Each iteration dequeues the front entry (`queue.shift()`), increments the
processed counter, and expands the dequeued state's moves.  `none` is
returned only on fuel exhaustion, which `bfsLoop_total` below proves never
happens for the fuel supplied by `solveOpt`. -/
def bfsLoop (init : State) :
    Nat → List QueueEntry → List (List Str) → Nat → Option SolveResult
  | 0, _, _, _ => none
  | fuel + 1, queue, visited, processed =>
      match queue with
      | [] => some ⟨init, none, ⟨processed, 0⟩⟩
      | (st, path) :: rest =>
          match expandMoves st path st.moves visited [] with
          | .inr (t, p) => some ⟨t, some p, ⟨processed + 1, p.length⟩⟩
          | .inl (visited2, newEntries) =>
              bfsLoop init fuel (rest ++ newEntries) visited2 (processed + 1)

/-- The number of states dequeued by the loop (independent recount of the
`processed` counter). -/
def bfsDequeues : Nat → List QueueEntry → List (List Str) → Nat
  | 0, _, _ => 0
  | fuel + 1, queue, visited =>
      match queue with
      | [] => 0
      | (st, path) :: rest =>
          match expandMoves st path st.moves visited [] with
          | .inr _ => 1
          | .inl (visited2, newEntries) =>
              1 + bfsDequeues fuel (rest ++ newEntries) visited2

/-- The length of the longest box of a state. -/
def maxBoxLen (s : State) : Nat :=
  s.foldr (fun box acc => max box.length acc) 0

/-- An upper bound on the length of any box in any state reachable from `s`:
moves only push onto boxes with fewer than 4 balls. -/
def boxCap (s : State) : Nat := max 4 (maxBoxLen s)

/-- The number of lists of colors of length at most `L`
(`1 + 15 + 15² + ⋯ + 15^L`). -/
def boxCount : Nat → Nat
  | 0 => 1
  | L + 1 => 15 * boxCount L + 1

/-- Fuel sufficient for `bfsLoop`: one iteration per dequeue, at most one
dequeue per enqueue, at most one enqueue per distinct canonical key, and at
most `boxCount (boxCap s) ^ s.length` distinct keys of reachable states. -/
def fuelBound (s : State) : Nat :=
  boxCount (boxCap s) ^ s.length + 2

/-- `solve`, fuel-explicit: the already-solved fast path, then the search
loop seeded with the initial state and its canonical key. -/
def solveOpt (init : State) : Option SolveResult :=
  if init.solved then some ⟨init, some [], ⟨0, 0⟩⟩
  else bfsLoop init (fuelBound init) [(init, [])] [init.canonicalKey] 0

/-- The `solve` function.  `solveOpt_isSome` proves the default value is
never used. -/
def solve (init : State) : SolveResult :=
  (solveOpt init).getD ⟨init, none, ⟨0, 0⟩⟩

/-- Total number of states dequeued over a whole run of `solve`. -/
def totalDequeues (init : State) : Nat :=
  if init.solved then 0
  else bfsDequeues (fuelBound init) [(init, [])] [init.canonicalKey]

/-- All reachable states have `n` boxes each holding at most `L` balls. -/
def StateShape (n L : Nat) (s : State) : Prop :=
  s.length = n ∧ ∀ i, (s.getD i []).length ≤ L

/-- `σ` maps indices of `a` to indices of `b` preserving box contents. -/
def IndexMap (a b : State) (σ : Nat → Nat) : Prop :=
  a.length = b.length ∧
  (∀ i, i < a.length → σ i < a.length ∧ b.getD (σ i) [] = a.getD i []) ∧
  (∀ i j, i < a.length → j < a.length → σ i = σ j → i = j)

/-- Index bijection witnessing a transposition of the first two boxes. -/
def swapIdx : Nat → Nat
  | 0 => 1
  | 1 => 0
  | n + 2 => n + 2

/-- Extension of an index bijection under a shared head box. -/
def consIdx (σ : Nat → Nat) : Nat → Nat
  | 0 => 0
  | n + 1 => σ n + 1

/-- Invariant of the frontier `queue` and `visited` set, relative to the
initial state. -/
structure LoopInv (init : State) (queue : List QueueEntry)
    (visited : List (List Str)) : Prop where
  sorted : List.Pairwise (fun e1 e2 : QueueEntry => e1.2.length ≤ e2.2.length) queue
  tight : ∀ e ∈ queue, ∀ f ∈ queue, e.2.length ≤ f.2.length + 1
  entries : ∀ e ∈ queue, LegalPath init e.2 e.1 ∧ e.1.solved = false ∧
      e.1.canonicalKey ∈ visited
  minimal : ∀ e ∈ queue, ∀ x : State, ∀ π : List Move, LegalPath init π x →
      x.canonicalKey = e.1.canonicalKey → e.2.length ≤ π.length
  closure : ∀ x : State, x.canonicalKey ∈ visited →
      (∀ e ∈ queue, e.1.canonicalKey ≠ x.canonicalKey) →
      ∀ m ∈ x.moves, (x.applyMove m).canonicalKey ∈ visited
  reached : ∀ x : State, ∀ π : List Move, LegalPath init π x →
      (∀ e ∈ queue, π.length ≤ e.2.length) → x.canonicalKey ∈ visited
  initKey : init.canonicalKey ∈ visited
  reps : ∀ k ∈ visited, ∃ x : State, x.canonicalKey = k ∧ x.solved = false ∧
      StateShape init.length (boxCap init) x
  shapes : ∀ e ∈ queue, StateShape init.length (boxCap init) e.1
  nodupKeys : visited.Nodup

/-- All lists of colors of length at most `L`. -/
def allBoxes : Nat → List (List Color)
  | 0 => [[]]
  | L + 1 => [] :: (allColors.flatMap fun c => (allBoxes L).map (c :: ·))

/-- All states of `n` boxes each of length at most `L`. -/
def allStatesLen : Nat → Nat → List State
  | 0, _ => [[]]
  | n + 1, L => (allBoxes L).flatMap fun box => (allStatesLen n L).map (box :: ·)

/-- The number of distinct canonical keys cannot exceed this bound. -/
def keyBound (init : State) : Nat :=
  boxCount (boxCap init) ^ init.length

/-- The spec's end-to-end scenario:
`[[DB,Ye,DB,DB],[BG,Ye,BG,Re],[Re,Re,BG,DB],[Ye,Ye,BG,Re],[],[]]`. -/
def exampleInit : State :=
  [[.DB, .Ye, .DB, .DB], [.BG, .Ye, .BG, .Re], [.Re, .Re, .BG, .DB],
   [.Ye, .Ye, .BG, .Re], [], []]

/-- An explicit 12-move solution of `exampleInit`. -/
def exampleMoves : List Move :=
  [⟨0, 4⟩, ⟨0, 4⟩, ⟨2, 4⟩, ⟨2, 5⟩, ⟨1, 2⟩, ⟨1, 5⟩, ⟨3, 2⟩, ⟨3, 5⟩, ⟨0, 3⟩,
   ⟨0, 4⟩, ⟨1, 3⟩, ⟨1, 5⟩]

/-- The state reached by `exampleMoves` from `exampleInit`. -/
def exampleFinal : State :=
  [[], [], [.Re, .Re, .Re, .Re], [.Ye, .Ye, .Ye, .Ye], [.DB, .DB, .DB, .DB],
   [.BG, .BG, .BG, .BG]]

/-- Executable legality checker for a move sequence. -/
def legalPathChecker : State → List Move → Option State
  | s, [] => some s
  | s, m :: ms =>
      if m ∈ s.moves then legalPathChecker (s.applyMove m) ms else none

/-! ## Characterization of the legal moves -/

/-- Strict lexicographic order on moves: source index as the outer key,
destination index as the inner key. -/
def moveLt (m1 m2 : Move) : Prop :=
  m1.fromBoxNumber < m2.fromBoxNumber ∨
    (m1.fromBoxNumber = m2.fromBoxNumber ∧ m1.toBoxNumber < m2.toBoxNumber)

theorem mem_ite_nil {α : Type} {c : Prop} [Decidable c] {l : List α} {m : α} :
    (m ∈ if c then ([] : List α) else l) ↔ ¬c ∧ m ∈ l := by
  split
  · simp [*]
  · simp [*]

theorem mem_ite_singleton {α : Type} {c : Prop} [Decidable c] {x m : α} :
    (m ∈ if c then [x] else ([] : List α)) ↔ c ∧ m = x := by
  split
  · simp [*]
  · simp [*]

theorem mem_moves_iff {s : State} {m : Move} :
    m ∈ s.moves ↔
      m.fromBoxNumber < s.length ∧ m.toBoxNumber < s.length ∧
      m.fromBoxNumber ≠ m.toBoxNumber ∧
      s.getD m.fromBoxNumber [] ≠ [] ∧
      (s.getD m.toBoxNumber []).length < 4 ∧
      (s.getD m.toBoxNumber [] = [] ∨
        (s.getD m.toBoxNumber []).getLast? = (s.getD m.fromBoxNumber []).getLast?) := by
  unfold State.moves
  simp only [List.mem_flatMap, List.mem_range]
  constructor
  · rintro ⟨i, hi, hm⟩
    rw [mem_ite_nil] at hm
    obtain ⟨hfrom, hm⟩ := hm
    simp only [List.mem_flatMap, List.mem_range] at hm
    obtain ⟨j, hj, hmj⟩ := hm
    rw [mem_ite_nil] at hmj
    obtain ⟨hcond, hmj⟩ := hmj
    rw [mem_ite_singleton] at hmj
    obtain ⟨hok, rfl⟩ := hmj
    push_neg at hcond
    refine ⟨hi, hj, hcond.1, ?_, hcond.2, ?_⟩
    · intro hempty
      rw [show ((⟨i, j⟩ : Move).fromBoxNumber) = i from rfl] at hempty
      rw [hempty] at hfrom
      simp at hfrom
    · rcases hok with h | h
      · exact Or.inl (List.length_eq_zero.mp h)
      · exact Or.inr h
  · rintro ⟨h1, h2, h3, h4, h5, h6⟩
    refine ⟨m.fromBoxNumber, h1, ?_⟩
    rw [mem_ite_nil]
    refine ⟨by simpa [List.length_eq_zero] using h4, ?_⟩
    simp only [List.mem_flatMap, List.mem_range]
    refine ⟨m.toBoxNumber, h2, ?_⟩
    rw [mem_ite_nil]
    refine ⟨by push_neg; exact ⟨h3, by omega⟩, ?_⟩
    rw [mem_ite_singleton]
    refine ⟨?_, rfl⟩
    rcases h6 with h | h
    · exact Or.inl (by rw [h]; rfl)
    · exact Or.inr h

theorem moves_pairwise (s : State) : List.Pairwise moveLt s.moves := by
  unfold State.moves
  rw [List.pairwise_flatMap]
  have inner_shape : ∀ i j : Nat, ∀ x : Move,
      (x ∈ if i = j ∨ 4 ≤ (s.getD j []).length then []
        else if (s.getD j []).length = 0 ∨
            (s.getD j []).getLast? = (s.getD i []).getLast? then
          ([⟨i, j⟩] : List Move)
        else []) → x = ⟨i, j⟩ := by
    intro i j x hx
    rw [mem_ite_nil] at hx
    rw [mem_ite_singleton] at hx
    exact hx.2.2
  constructor
  · intro i _
    split
    · exact List.Pairwise.nil
    · rw [List.pairwise_flatMap]
      constructor
      · intro j _
        split
        · exact List.Pairwise.nil
        · split
          · simp
          · exact List.Pairwise.nil
      · have h := List.pairwise_lt_range s.length
        refine h.imp_of_mem ?_
        intro j1 j2 _ _ hlt x hx y hy
        have hx' := inner_shape i j1 x hx
        have hy' := inner_shape i j2 y hy
        subst hx'; subst hy'
        exact Or.inr ⟨rfl, hlt⟩
  · have h := List.pairwise_lt_range s.length
    refine h.imp_of_mem ?_
    intro i1 i2 _ _ hlt x hx y hy
    rw [mem_ite_nil] at hx hy
    obtain ⟨_, hx⟩ := hx
    obtain ⟨_, hy⟩ := hy
    simp only [List.mem_flatMap, List.mem_range] at hx hy
    obtain ⟨j1, _, hx⟩ := hx
    obtain ⟨j2, _, hy⟩ := hy
    have hx' := inner_shape i1 j1 x hx
    have hy' := inner_shape i2 j2 y hy
    subst hx'; subst hy'
    exact Or.inl hlt

/-! ## Characterization of the solved predicate -/

theorem solved_iff {s : State} :
    s.solved = true ↔
      (∀ box ∈ s, box = [] ∨ (box.length = 4 ∧ ∃ c, ∀ b ∈ box, b = c)) ∧
      (∀ c, c ∈ s.flatten → s.flatten.count c = 4) := by
  unfold State.solved
  simp only [Bool.and_eq_true, List.all_eq_true, Bool.or_eq_true, List.isEmpty_iff,
    decide_eq_true_eq]
  constructor
  · rintro ⟨hboxes, hcounts⟩
    refine ⟨?_, fun c hc => hcounts c hc⟩
    intro box hbox
    rcases hboxes box hbox with h | ⟨hlen, huni⟩
    · exact Or.inl h
    · refine Or.inr ⟨hlen, ⟨box.headD .Re, huni⟩⟩
  · rintro ⟨hboxes, hcounts⟩
    refine ⟨?_, fun c hc => hcounts c hc⟩
    intro box hbox
    rcases hboxes box hbox with h | ⟨hlen, c, huni⟩
    · exact Or.inl h
    · refine Or.inr ⟨hlen, ?_⟩
      intro b hb
      have hne : box ≠ [] := by
        intro h; rw [h] at hlen; simp at hlen
      have hhead : box.headD .Re = c := by
        cases box with
        | nil => exact absurd rfl hne
        | cons x xs => exact huni x (by simp)
      rw [huni b hb, hhead]

/-! ## Canonical keys: injectivity and the equivalence relation -/

theorem chars_length (c : Color) : (Color.chars c).length = 2 := by
  cases c <;> rfl

theorem chars_injective : Function.Injective Color.chars := by
  intro a b h
  revert h
  revert a b
  decide

theorem boxKey_injective : Function.Injective boxKey := by
  intro a b h
  induction a generalizing b with
  | nil =>
    cases b with
    | nil => rfl
    | cons y ys =>
      exfalso
      unfold boxKey at h
      simp only [List.map_nil, List.flatten_nil, List.map_cons, List.flatten_cons] at h
      have := congrArg List.length h
      simp [chars_length y] at this
      omega
  | cons x xs ih =>
    cases b with
    | nil =>
      exfalso
      unfold boxKey at h
      simp only [List.map_nil, List.flatten_nil, List.map_cons, List.flatten_cons] at h
      have := congrArg List.length h
      simp [chars_length x] at this
    | cons y ys =>
      unfold boxKey at h
      simp only [List.map_cons, List.flatten_cons] at h
      have hlen : (Color.chars x).length = (Color.chars y).length := by
        rw [chars_length, chars_length]
      obtain ⟨h1, h2⟩ := List.append_inj h hlen
      have hx := chars_injective h1
      subst hx
      have := ih (b := ys) h2
      rw [this]

theorem map_boxKey_perm_iff {a b : State} :
    (a.map boxKey).Perm (b.map boxKey) ↔ a.Perm b := by
  constructor
  · intro h
    have hms : (Multiset.map boxKey ↑a) = (Multiset.map boxKey ↑b) := by
      rw [Multiset.map_coe, Multiset.map_coe]
      exact Multiset.coe_eq_coe.mpr h
    have := Multiset.map_injective boxKey_injective hms
    exact Multiset.coe_eq_coe.mp this
  · intro h
    exact h.map boxKey

theorem canonicalKey_eq_iff {a b : State} :
    a.canonicalKey = b.canonicalKey ↔ a.Perm b := by
  unfold State.canonicalKey
  constructor
  · intro h
    have ha := List.perm_insertionSort (α := Str) (· ≤ ·) (a.map boxKey)
    have hb := List.perm_insertionSort (α := Str) (· ≤ ·) (b.map boxKey)
    have : (a.map boxKey).Perm (b.map boxKey) :=
      ha.symm.trans (h ▸ hb)
    exact map_boxKey_perm_iff.mp this
  · intro h
    have hperm : ((a.map boxKey).insertionSort (· ≤ ·)).Perm
        ((b.map boxKey).insertionSort (· ≤ ·)) := by
      have ha := List.perm_insertionSort (α := Str) (· ≤ ·) (a.map boxKey)
      have hb := List.perm_insertionSort (α := Str) (· ≤ ·) (b.map boxKey)
      exact ha.trans ((h.map boxKey).trans hb.symm)
    exact List.eq_of_perm_of_sorted hperm
      (List.sorted_insertionSort (· ≤ ·) (a.map boxKey))
      (List.sorted_insertionSort (· ≤ ·) (b.map boxKey))

theorem equivalentTo_iff_key {a b : State} :
    a.equivalentTo b = true ↔ a.canonicalKey = b.canonicalKey := by
  unfold State.equivalentTo State.canonicalKey
  exact decide_eq_true_iff

/-! ## Pointwise description of `applyMove` -/

theorem getD_set_self {α : Type} (l : List α) (i : Nat) (v d : α) (h : i < l.length) :
    (l.set i v).getD i d = v := by
  rw [List.getD_eq_getElem?_getD, List.getElem?_set]
  simp [h]

theorem getD_set_ne {α : Type} (l : List α) (i j : Nat) (v d : α) (h : i ≠ j) :
    (l.set i v).getD j d = l.getD j d := by
  rw [List.getD_eq_getElem?_getD, List.getElem?_set, if_neg h, ← List.getD_eq_getElem?_getD]

theorem getLast?_some_of_ne_nil {α : Type} {l : List α} (h : l ≠ []) :
    ∃ b, l.getLast? = some b := by
  cases l with
  | nil => exact absurd rfl h
  | cons x xs =>
    induction xs generalizing x with
    | nil => exact ⟨x, rfl⟩
    | cons y ys ih =>
      obtain ⟨b, hb⟩ := ih y (by simp)
      exact ⟨b, by rw [List.getLast?_cons_cons]; exact hb⟩

theorem applyMove_length (s : State) (m : Move) : (s.applyMove m).length = s.length := by
  unfold State.applyMove
  split
  · rfl
  · simp [List.length_set]

theorem getD_applyMove_from {s : State} {m : Move} {ball : Color}
    (hball : (s.getD m.fromBoxNumber []).getLast? = some ball)
    (hne : m.fromBoxNumber ≠ m.toBoxNumber)
    (hlt : m.fromBoxNumber < s.length) :
    (s.applyMove m).getD m.fromBoxNumber [] = (s.getD m.fromBoxNumber []).dropLast := by
  unfold State.applyMove
  rw [hball]
  dsimp only
  rw [getD_set_ne _ _ _ _ _ (fun h => hne h.symm)]
  exact getD_set_self _ _ _ _ hlt

theorem getD_applyMove_to {s : State} {m : Move} {ball : Color}
    (hball : (s.getD m.fromBoxNumber []).getLast? = some ball)
    (hne : m.fromBoxNumber ≠ m.toBoxNumber)
    (hto : m.toBoxNumber < s.length) :
    (s.applyMove m).getD m.toBoxNumber [] = s.getD m.toBoxNumber [] ++ [ball] := by
  unfold State.applyMove
  rw [hball]
  dsimp only
  rw [getD_set_self _ _ _ _ (by rw [List.length_set]; exact hto)]
  congr 1
  exact getD_set_ne _ _ _ _ _ hne

theorem getD_applyMove_other {s : State} {m : Move} {k : Nat}
    (hk1 : k ≠ m.fromBoxNumber) (hk2 : k ≠ m.toBoxNumber) :
    (s.applyMove m).getD k [] = s.getD k [] := by
  unfold State.applyMove
  split
  · rfl
  · dsimp only
    rw [getD_set_ne _ _ _ _ _ hk2.symm]
    exact getD_set_ne _ _ _ _ _ hk1.symm

/-! ## Shape invariant preserved by legal moves -/

theorem shape_applyMove {n L : Nat} {s : State} {m : Move}
    (hs : StateShape n L s) (hL : 4 ≤ L) (hm : m ∈ s.moves) :
    StateShape n L (s.applyMove m) := by
  obtain ⟨hlen, hboxes⟩ := hs
  rw [mem_moves_iff] at hm
  obtain ⟨h1, h2, h3, h4, h5, _⟩ := hm
  obtain ⟨ball, hball⟩ := getLast?_some_of_ne_nil h4
  refine ⟨by rw [applyMove_length]; exact hlen, ?_⟩
  intro i
  by_cases hif : i = m.fromBoxNumber
  · subst hif
    rw [getD_applyMove_from hball h3 h1, List.length_dropLast]
    have := hboxes m.fromBoxNumber
    omega
  · by_cases hit : i = m.toBoxNumber
    · subst hit
      rw [getD_applyMove_to hball h3 h2, List.length_append]
      simp only [List.length_singleton]
      omega
    · rw [getD_applyMove_other hif hit]
      exact hboxes i

theorem mem_le_maxBoxLen {s : State} {box : List Color} (h : box ∈ s) :
    box.length ≤ maxBoxLen s := by
  induction s with
  | nil => simp at h
  | cons x xs ih =>
    unfold maxBoxLen
    simp only [List.foldr_cons]
    rcases List.mem_cons.mp h with h | h
    · subst h
      exact le_max_left _ _
    · exact le_trans (ih h) (le_max_right _ _)

theorem shape_init (s : State) : StateShape s.length (boxCap s) s := by
  refine ⟨rfl, ?_⟩
  intro i
  by_cases h : i < s.length
  · have hmem : s.getD i [] ∈ s := by
      rw [List.getD_eq_getElem?_getD, List.getElem?_eq_getElem h, Option.getD_some]
      exact List.getElem_mem h
    exact le_trans (mem_le_maxBoxLen hmem) (le_max_right _ _)
  · rw [List.getD_eq_getElem?_getD, List.getElem?_eq_none (by omega)]
    simp

/-! ## Legal move sequences: basic lemmas -/

theorem LegalPath.nil_inv {s t : State} (h : LegalPath s [] t) : t = s := by
  cases h; rfl

theorem LegalPath.append_move {s t : State} {p : List Move} {m : Move}
    (hp : LegalPath s p t) (hm : m ∈ t.moves) :
    LegalPath s (p ++ [m]) (t.applyMove m) := by
  induction hp with
  | nil s => exact LegalPath.cons hm (LegalPath.nil _)
  | cons hm' _ ih => exact LegalPath.cons hm' (ih hm)

theorem LegalPath.foldl_eq {s t : State} {p : List Move} (hp : LegalPath s p t) :
    p.foldl State.applyMove s = t := by
  induction hp with
  | nil => rfl
  | cons _ _ ih => simpa using ih

theorem LegalPath.snoc_decomp {s t : State} {p : List Move} (hp : LegalPath s p t)
    (hne : p ≠ []) :
    ∃ q m u, p = q ++ [m] ∧ LegalPath s q u ∧ m ∈ u.moves ∧ t = u.applyMove m := by
  induction hp with
  | nil => exact absurd rfl hne
  | cons hm htail ih =>
    rename_i s' t' m' ms'
    by_cases hms : ms' = []
    · subst hms
      exact ⟨[], m', s', rfl, LegalPath.nil _, hm, htail.nil_inv⟩
    · obtain ⟨q, ml, u, hq1, hq2, hq3, hq4⟩ := ih hms
      refine ⟨m' :: q, ml, u, ?_, LegalPath.cons hm hq2, hq3, hq4⟩
      rw [hq1]
      rfl

theorem shape_path {n L : Nat} {s t : State} {p : List Move} (hL : 4 ≤ L)
    (hp : LegalPath s p t) : StateShape n L s → StateShape n L t := by
  induction hp with
  | nil => exact id
  | cons hm _ ih => exact fun hs => ih (shape_applyMove hs hL hm)

/-! ## Permutation of boxes as an index bijection

`canonicalKey` identifies states whose box lists are permutations of each
other; the search prunes by key, so we need that permuted states simulate
each other's moves.  A permutation of the box list is realized as a
bijection on box indices. -/

theorem perm_exists_indexMap {a b : State} (h : a.Perm b) : ∃ σ, IndexMap a b σ := by
  induction h with
  | nil => exact ⟨id, rfl, fun i hi => absurd hi (Nat.not_lt_zero i), fun i j _ _ h => h⟩
  | cons x h ih =>
    rename_i l₁ l₂
    obtain ⟨σ, hlen, hval, hinj⟩ := ih
    refine ⟨consIdx σ, by simpa using hlen, ?_, ?_⟩
    · intro i hi
      obtain _ | k := i
      · exact ⟨by simp [consIdx], rfl⟩
      · have hk : k < l₁.length := by simpa using hi
        obtain ⟨hσ, hv⟩ := hval k hk
        refine ⟨?_, ?_⟩
        · show σ k + 1 < (x :: l₁).length
          simp only [List.length_cons]
          omega
        · show (x :: l₂).getD (σ k + 1) [] = (x :: l₁).getD (k + 1) []
          rw [List.getD_cons_succ, List.getD_cons_succ]
          exact hv
    · intro i j hi hj hij
      obtain _ | i := i <;> obtain _ | j := j <;> simp only [consIdx] at hij
      · rfl
      · exact absurd hij (by omega)
      · exact absurd hij (by omega)
      · have hi' : i < l₁.length := by simpa using hi
        have hj' : j < l₁.length := by simpa using hj
        have := hinj i j hi' hj' (by omega)
        omega
  | swap x y l =>
    refine ⟨swapIdx, rfl, ?_, ?_⟩
    · intro i hi
      obtain _ | (_ | k) := i
      · refine ⟨?_, rfl⟩
        show 1 < l.length + 1 + 1
        omega
      · refine ⟨?_, rfl⟩
        show 0 < l.length + 1 + 1
        omega
      · exact ⟨hi, rfl⟩
    · intro i j hi hj hij
      obtain _ | (_ | i) := i <;> obtain _ | (_ | j) := j <;>
        simp only [swapIdx] at hij <;> omega
  | trans h1 h2 ih1 ih2 =>
    rename_i l₁ l₂ l₃
    obtain ⟨σ1, hlen1, hval1, hinj1⟩ := ih1
    obtain ⟨σ2, hlen2, hval2, hinj2⟩ := ih2
    refine ⟨fun i => σ2 (σ1 i), by omega, ?_, ?_⟩
    · intro i hi
      obtain ⟨hs1, hv1⟩ := hval1 i hi
      obtain ⟨hs2, hv2⟩ := hval2 (σ1 i) (by omega)
      refine ⟨?_, ?_⟩
      · show σ2 (σ1 i) < l₁.length
        omega
      · show l₃.getD (σ2 (σ1 i)) [] = l₁.getD i []
        rw [hv2, hv1]
    · intro i j hi hj hij
      have hb1 := (hval1 i hi).1
      have hb2 := (hval1 j hj).1
      exact hinj1 i j hi hj (hinj2 (σ1 i) (σ1 j) (by omega) (by omega) hij)

theorem count_eq_range_filter {α : Type} [DecidableEq α] (l : List α) (x d : α) :
    l.count x = ((List.range l.length).filter fun i => decide (l.getD i d = x)).length := by
  induction l with
  | nil => rfl
  | cons y ys ih =>
    have hmap : ((List.range ys.length).map Nat.succ).filter
        (fun i => decide ((y :: ys).getD i d = x)) =
        ((List.range ys.length).filter fun i => decide (ys.getD i d = x)).map Nat.succ := by
      rw [List.filter_map]
      simp only [Function.comp_def, List.getD_cons_succ]
    rw [show (y :: ys).length = ys.length + 1 from rfl, List.range_succ_eq_map,
      List.filter_cons, List.count_cons, hmap]
    by_cases hy : y = x
    · rw [if_pos (by simpa using hy), if_pos (by simp [hy])]
      simp only [List.length_cons, List.length_map]
      rw [ih]
    · rw [if_neg (by simpa using hy), if_neg (by simp [hy])]
      simp only [List.length_map]
      rw [ih]
      omega

theorem length_filter_range_eq_card (n : Nat) (p : Nat → Prop) [DecidablePred p] :
    ((List.range n).filter fun i => decide (p i)).length =
    ((Finset.range n).filter p).card := by
  rfl

theorem perm_of_indexMap {a b : State} {σ : Nat → Nat} (h : IndexMap a b σ) :
    a.Perm b := by
  obtain ⟨hlen, hval, hinj⟩ := h
  rw [List.perm_iff_count]
  intro box
  rw [count_eq_range_filter a box [], count_eq_range_filter b box [],
    length_filter_range_eq_card, length_filter_range_eq_card]
  have hsurj : ∀ j ∈ Finset.range a.length, ∃ i, ∃ _ : i ∈ Finset.range a.length,
      j = σ i := by
    refine Finset.surj_on_of_inj_on_of_card_le (fun i _ => σ i) ?_ ?_ le_rfl
    · intro i hi
      rw [Finset.mem_range] at hi ⊢
      exact (hval i hi).1
    · intro i j hi hj hij
      rw [Finset.mem_range] at hi hj
      exact hinj i j hi hj hij
  refine Finset.card_bij (fun i _ => σ i) ?_ ?_ ?_
  · intro i hi
    dsimp only
    rw [Finset.mem_filter, Finset.mem_range] at hi
    rw [Finset.mem_filter, Finset.mem_range]
    obtain ⟨hlt, hbox⟩ := hi
    obtain ⟨hσ, hv⟩ := hval i hlt
    exact ⟨by omega, by rw [hv, hbox]⟩
  · intro i hi j hj hij
    rw [Finset.mem_filter, Finset.mem_range] at hi hj
    exact hinj i j hi.1 hj.1 hij
  · intro j hj
    rw [Finset.mem_filter, Finset.mem_range] at hj
    obtain ⟨hjlt, hjbox⟩ := hj
    obtain ⟨i, hi, hij⟩ := hsurj j (Finset.mem_range.mpr (by omega))
    rw [Finset.mem_range] at hi
    obtain ⟨hσ, hv⟩ := hval i hi
    refine ⟨i, ?_, hij.symm⟩
    rw [Finset.mem_filter, Finset.mem_range]
    refine ⟨hi, ?_⟩
    rw [← hv, ← hij]
    exact hjbox

/-! ## Bisimulation: permuted states simulate each other's moves -/

theorem indexMap_moves {a b : State} {σ : Nat → Nat} (h : IndexMap a b σ) {m : Move}
    (hm : m ∈ a.moves) :
    (⟨σ m.fromBoxNumber, σ m.toBoxNumber⟩ : Move) ∈ b.moves ∧
      IndexMap (a.applyMove m) (b.applyMove ⟨σ m.fromBoxNumber, σ m.toBoxNumber⟩) σ := by
  obtain ⟨hlen, hval, hinj⟩ := h
  rw [mem_moves_iff] at hm
  obtain ⟨h1, h2, h3, h4, h5, h6⟩ := hm
  obtain ⟨hσf, hvf⟩ := hval m.fromBoxNumber h1
  obtain ⟨hσt, hvt⟩ := hval m.toBoxNumber h2
  have hσne : σ m.fromBoxNumber ≠ σ m.toBoxNumber := fun hc => h3 (hinj _ _ h1 h2 hc)
  obtain ⟨ball, hball⟩ := getLast?_some_of_ne_nil h4
  have hσflt : σ m.fromBoxNumber < b.length := by omega
  have hσtlt : σ m.toBoxNumber < b.length := by omega
  have hm' : (⟨σ m.fromBoxNumber, σ m.toBoxNumber⟩ : Move) ∈ b.moves := by
    rw [mem_moves_iff]
    refine ⟨?_, ?_, hσne, ?_, ?_, ?_⟩
    · show σ m.fromBoxNumber < b.length
      omega
    · show σ m.toBoxNumber < b.length
      omega
    · show b.getD (σ m.fromBoxNumber) [] ≠ []
      rw [hvf]; exact h4
    · show (b.getD (σ m.toBoxNumber) []).length < 4
      rw [hvt]; exact h5
    · show b.getD (σ m.toBoxNumber) [] = [] ∨
        (b.getD (σ m.toBoxNumber) []).getLast? = (b.getD (σ m.fromBoxNumber) []).getLast?
      rw [hvt, hvf]; exact h6
  refine ⟨hm', ?_⟩
  have hballb : (b.getD (σ m.fromBoxNumber) []).getLast? = some ball := by
    rw [hvf]; exact hball
  have lhsFrom : (b.applyMove ⟨σ m.fromBoxNumber, σ m.toBoxNumber⟩).getD
      (σ m.fromBoxNumber) [] = (b.getD (σ m.fromBoxNumber) []).dropLast :=
    getD_applyMove_from (m := ⟨σ m.fromBoxNumber, σ m.toBoxNumber⟩) hballb hσne hσflt
  have lhsTo : (b.applyMove ⟨σ m.fromBoxNumber, σ m.toBoxNumber⟩).getD
      (σ m.toBoxNumber) [] = b.getD (σ m.toBoxNumber) [] ++ [ball] :=
    getD_applyMove_to (m := ⟨σ m.fromBoxNumber, σ m.toBoxNumber⟩) hballb hσne hσtlt
  refine ⟨?_, ?_, ?_⟩
  · rw [applyMove_length, applyMove_length]; exact hlen
  · intro i hi
    rw [applyMove_length] at hi
    obtain ⟨hσi, hvi⟩ := hval i hi
    refine ⟨by rw [applyMove_length]; exact hσi, ?_⟩
    by_cases hif : i = m.fromBoxNumber
    · rw [hif, getD_applyMove_from hball h3 h1, lhsFrom, hvf]
    · by_cases hit : i = m.toBoxNumber
      · rw [hit, getD_applyMove_to hball h3 h2, lhsTo, hvt]
      · have hσif : σ i ≠ σ m.fromBoxNumber := fun hc => hif (hinj _ _ hi h1 hc)
        have hσit : σ i ≠ σ m.toBoxNumber := fun hc => hit (hinj _ _ hi h2 hc)
        have lhsOther : (b.applyMove ⟨σ m.fromBoxNumber, σ m.toBoxNumber⟩).getD
            (σ i) [] = b.getD (σ i) [] :=
          getD_applyMove_other (m := ⟨σ m.fromBoxNumber, σ m.toBoxNumber⟩) hσif hσit
        rw [getD_applyMove_other hif hit, lhsOther]
        exact hvi
  · intro i j hi hj hij
    rw [applyMove_length] at hi hj
    exact hinj i j hi hj hij

theorem perm_solved {a b : State} (h : a.Perm b) : a.solved = b.solved := by
  have key : ∀ x y : State, x.Perm y → x.solved = true → y.solved = true := by
    intro x y hxy hx
    rw [solved_iff] at hx ⊢
    obtain ⟨hboxes, hcounts⟩ := hx
    have hflat : x.flatten.Perm y.flatten := hxy.flatten
    refine ⟨?_, ?_⟩
    · intro box hbox
      exact hboxes box (hxy.mem_iff.mpr hbox)
    · intro c hc
      rw [← hflat.count_eq]
      exact hcounts c (hflat.mem_iff.mpr hc)
  by_cases hx : a.solved = true
  · rw [hx, key a b h hx]
  · by_cases hy : b.solved = true
    · exact absurd (key b a h.symm hy) hx
    · rw [Bool.not_eq_true] at hx hy
      rw [hx, hy]

theorem perm_path {a b t : State} {p : List Move} (hab : a.Perm b)
    (hp : LegalPath a p t) :
    ∃ p' t', LegalPath b p' t' ∧ p'.length = p.length ∧ t.Perm t' := by
  induction hp generalizing b with
  | nil => exact ⟨[], b, LegalPath.nil _, rfl, hab⟩
  | cons hm htail ih =>
    rename_i s' t' m' ms'
    obtain ⟨σ, hσ⟩ := perm_exists_indexMap hab
    obtain ⟨hm', hmap'⟩ := indexMap_moves hσ hm
    have hperm' := perm_of_indexMap hmap'
    obtain ⟨p', t'', hpath, hplen, htperm⟩ := ih hperm'
    exact ⟨_ :: p', t'', LegalPath.cons hm' hpath, by simp [hplen], htperm⟩

/-! ## Specification of the inner expansion loop -/

theorem expand_found {st : State} {path : List Move} {ms : List Move}
    {visited : List (List Str)} {acc : List QueueEntry} {t : State} {p : List Move}
    (h : expandMoves st path ms visited acc = .inr (t, p)) :
    ∃ m ∈ ms, t = st.applyMove m ∧ p = path ++ [m] ∧ t.solved = true := by
  induction ms generalizing visited acc with
  | nil => simp [expandMoves] at h
  | cons m rest ih =>
    rw [expandMoves] at h
    split at h
    · obtain ⟨m', hm', hrest⟩ := ih h
      exact ⟨m', List.mem_cons_of_mem _ hm', hrest⟩
    · split at h
      · rename_i hsolved
        have hinj := Prod.mk.inj (Sum.inr.inj h)
        exact ⟨m, List.mem_cons_self _ _, hinj.1.symm, hinj.2.symm, hinj.1 ▸ hsolved⟩
      · obtain ⟨m', hm', hrest⟩ := ih h
        exact ⟨m', List.mem_cons_of_mem _ hm', hrest⟩

theorem expand_inl {st : State} {path : List Move} {ms : List Move}
    {visited v2 : List (List Str)} {acc acc2 : List QueueEntry}
    (h : expandMoves st path ms visited acc = .inl (v2, acc2)) :
    ∃ es : List QueueEntry,
      v2 = visited ++ es.map (fun e => e.1.canonicalKey) ∧
      acc2 = acc ++ es ∧
      (∀ e ∈ es, ∃ m ∈ ms, e.1 = st.applyMove m ∧ e.2 = path ++ [m] ∧
        e.1.solved = false ∧ e.1.canonicalKey ∉ visited) ∧
      (∀ m ∈ ms, (st.applyMove m).canonicalKey ∈ v2) ∧
      (visited.Nodup → v2.Nodup) := by
  induction ms generalizing visited acc with
  | nil =>
    rw [expandMoves] at h
    obtain ⟨hv, ha⟩ := Prod.mk.inj (Sum.inl.inj h)
    exact ⟨[], by simp [hv], by simp [ha], by simp, by simp, by rw [← hv]; exact id⟩
  | cons m rest ih =>
    rw [expandMoves] at h
    split at h
    · rename_i hkey
      obtain ⟨es, h1, h2, h3, h4, h5⟩ := ih h
      refine ⟨es, h1, h2, ?_, ?_, h5⟩
      · intro e he
        obtain ⟨m', hm', he1, he2, he3, he4⟩ := h3 e he
        exact ⟨m', List.mem_cons_of_mem _ hm', he1, he2, he3, he4⟩
      · intro m' hm'
        rcases List.mem_cons.mp hm' with hm' | hm'
        · subst hm'
          rw [h1]
          exact List.mem_append_left _ hkey
        · exact h4 m' hm'
    · split at h
      · exact absurd h (by simp)
      · rename_i hkey hsolved
        obtain ⟨es, h1, h2, h3, h4, h5⟩ := ih h
        refine ⟨(st.applyMove m, path ++ [m]) :: es, ?_, ?_, ?_, ?_, ?_⟩
        · rw [h1]
          simp
        · rw [h2]
          simp
        · intro e he
          rcases List.mem_cons.mp he with he | he
          · subst he
            exact ⟨m, List.mem_cons_self _ _, rfl, rfl,
              Bool.not_eq_true _ ▸ hsolved, hkey⟩
          · obtain ⟨m', hm', he1, he2, he3, he4⟩ := h3 e he
            refine ⟨m', List.mem_cons_of_mem _ hm', he1, he2, he3, ?_⟩
            intro hc
            exact he4 (List.mem_append_left _ hc)
        · intro m' hm'
          rcases List.mem_cons.mp hm' with hm' | hm'
          · subst hm'
            rw [h1]
            refine List.mem_append_left _ (List.mem_append_right _ ?_)
            exact List.mem_singleton_self _
          · exact h4 m' hm'
        · intro hnd
          refine h5 ?_
          rw [List.nodup_append]
          refine ⟨hnd, List.nodup_singleton _, ?_⟩
          intro k hk
          simp only [List.mem_singleton]
          intro hc
          subst hc
          exact hkey hk

/-! ## The breadth-first search invariant -/

theorem loopInv_init {init : State} (hns : init.solved = false) :
    LoopInv init [(init, [])] [init.canonicalKey] := by
  refine ⟨?_, ?_, ?_, ?_, ?_, ?_, ?_, ?_, ?_, ?_⟩
  · exact List.pairwise_singleton _ _
  · intro e he f hf
    rw [List.mem_singleton] at he hf
    subst he; subst hf
    omega
  · intro e he
    rw [List.mem_singleton] at he
    subst he
    exact ⟨LegalPath.nil _, hns, List.mem_singleton_self _⟩
  · intro e he x π _ _
    rw [List.mem_singleton] at he
    subst he
    simp
  · intro x hx hq m hm
    rw [List.mem_singleton] at hx
    exact absurd hx.symm (hq (init, []) (List.mem_singleton_self _))
  · intro x π hπ hle
    have h0 := hle (init, []) (List.mem_singleton_self _)
    have hπnil : π = [] := List.length_eq_zero.mp (by simpa using h0)
    subst hπnil
    rw [hπ.nil_inv]
    exact List.mem_singleton_self _
  · exact List.mem_singleton_self _
  · intro k hk
    rw [List.mem_singleton] at hk
    exact ⟨init, hk.symm, hns, shape_init init⟩
  · intro e he
    rw [List.mem_singleton] at he
    subst he
    exact shape_init init
  · exact List.nodup_singleton _

/-- If a solving path exists, some queue entry covers a solution within the
same total length budget (and the covering continuation is nonempty, since
queued states are never solved). -/
theorem covering {init : State} {queue : List QueueEntry} {visited : List (List Str)}
    (inv : LoopInv init queue visited)
    {p : List Move} {t : State} (hp : LegalPath init p t) (ht : t.solved = true) :
    ∃ e ∈ queue, ∃ r : List Move, ∃ u : State,
      LegalPath e.1 r u ∧ u.solved = true ∧ 1 ≤ r.length ∧
      e.2.length + r.length ≤ p.length := by
  suffices aux : ∀ cont : List Move, ∀ x t' : State, ∀ π : List Move,
      x.canonicalKey ∈ visited → LegalPath init π x → LegalPath x cont t' →
      t'.solved = true →
      ∃ e ∈ queue, ∃ r : List Move, ∃ u : State,
        LegalPath e.1 r u ∧ u.solved = true ∧ 1 ≤ r.length ∧
        e.2.length + r.length ≤ π.length + cont.length by
    have h := aux p init t [] inv.initKey (LegalPath.nil _) hp ht
    simpa using h
  intro cont
  induction cont with
  | nil =>
    intro x t' π hx hπ hcont ht'
    exfalso
    have hxt : t' = x := hcont.nil_inv
    subst hxt
    obtain ⟨y, hyk, hyns, _⟩ := inv.reps _ hx
    have hperm : y.Perm t' := canonicalKey_eq_iff.mp hyk
    rw [perm_solved hperm, ht'] at hyns
    simp at hyns
  | cons m cont' ih =>
    intro x t' π hx hπ hcont ht'
    cases hcont with
    | cons hm htail =>
      by_cases hQ : ∃ e ∈ queue, e.1.canonicalKey = x.canonicalKey
      · obtain ⟨e, heq, hek⟩ := hQ
        have hperm : x.Perm e.1 := canonicalKey_eq_iff.mp hek.symm
        obtain ⟨r, u, hr, hrlen, hu⟩ := perm_path hperm (LegalPath.cons hm htail)
        refine ⟨e, heq, r, u, hr, ?_, ?_, ?_⟩
        · rw [← perm_solved hu]
          exact ht'
        · rw [hrlen]
          simp
        · have hmin := inv.minimal e heq x π hπ hek.symm
          simp only [List.length_cons] at hrlen ⊢
          omega
      · push_neg at hQ
        have hnext : (x.applyMove m).canonicalKey ∈ visited :=
          inv.closure x hx (fun e he => hQ e he) m hm
        obtain ⟨e, he, r, u, hr, hu, hr1, hbound⟩ :=
          ih (x.applyMove m) t' (π ++ [m]) hnext (hπ.append_move hm) htail ht'
        refine ⟨e, he, r, u, hr, hu, hr1, ?_⟩
        rw [List.length_append] at hbound
        simp only [List.length_cons, List.length_singleton, List.length_nil] at hbound ⊢
        omega

/-! ## Preservation of the invariant by one loop iteration -/

theorem step_inl {init s₀ : State} {q₀ : List Move} {rest : List QueueEntry}
    {visited v2 : List (List Str)} {es : List QueueEntry}
    (inv : LoopInv init ((s₀, q₀) :: rest) visited)
    (h : expandMoves s₀ q₀ s₀.moves visited [] = .inl (v2, es)) :
    LoopInv init (rest ++ es) v2 ∧ v2.length = visited.length + es.length := by
  obtain ⟨es', hv2, hacc, hes, hcov, hnd⟩ := expand_inl h
  have hes'es : es = es' := by simpa using hacc
  subst hes'es
  have hheadmem : ((s₀, q₀) : QueueEntry) ∈ (s₀, q₀) :: rest :=
    List.mem_cons_self _ _
  have hpairlen : ((s₀, q₀) : QueueEntry).2.length = q₀.length := rfl
  obtain ⟨hpath0, hns0, hkey0⟩ := inv.entries _ hheadmem
  have hshape0 := inv.shapes _ hheadmem
  have hL : 4 ≤ boxCap init := le_max_left _ _
  have hsorted := inv.sorted
  rw [List.pairwise_cons] at hsorted
  obtain ⟨hheadle, hsortedRest⟩ := hsorted
  have heslen : ∀ e ∈ es, e.2.length = q₀.length + 1 := by
    intro e he
    obtain ⟨m, _, _, he2, _, _⟩ := hes e he
    rw [he2]
    simp
  have hesmemv2 : ∀ e ∈ es, e.1.canonicalKey ∈ v2 := by
    intro e he
    rw [hv2]
    exact List.mem_append_right _ (List.mem_map_of_mem _ he)
  have hvisv2 : ∀ k ∈ visited, k ∈ v2 := by
    intro k hk
    rw [hv2]
    exact List.mem_append_left _ hk
  have hesprops : ∀ e ∈ es, LegalPath init e.2 e.1 ∧ e.1.solved = false ∧
      StateShape init.length (boxCap init) e.1 := by
    intro e he
    obtain ⟨m, hm, he1, he2, hns, _⟩ := hes e he
    refine ⟨?_, hns, ?_⟩
    · rw [he1, he2]
      exact hpath0.append_move hm
    · rw [he1]
      exact shape_applyMove hshape0 hL hm
  -- minimality of the fresh entries
  have hminNew : ∀ e ∈ es, ∀ x : State, ∀ π : List Move, LegalPath init π x →
      x.canonicalKey = e.1.canonicalKey → e.2.length ≤ π.length := by
    intro e he x π hπ hk
    obtain ⟨m, hm, he1, he2, hns, hfresh⟩ := hes e he
    by_contra hc
    push_neg at hc
    rw [he2] at hc
    simp only [List.length_append, List.length_singleton] at hc
    have hreach : x.canonicalKey ∈ visited := by
      refine inv.reached x π hπ ?_
      intro f hf
      rcases List.mem_cons.mp hf with hf | hf
      · subst hf
        omega
      · have := hheadle f hf
        omega
    rw [hk] at hreach
    exact hfresh hreach
  -- closure of the processed classes
  have hclosNew : ∀ x : State, x.canonicalKey ∈ v2 →
      (∀ e ∈ rest ++ es, e.1.canonicalKey ≠ x.canonicalKey) →
      ∀ m ∈ x.moves, (x.applyMove m).canonicalKey ∈ v2 := by
    intro x hx hq m hm
    rw [hv2, List.mem_append] at hx
    rcases hx with hx | hx
    · by_cases hks : x.canonicalKey = s₀.canonicalKey
      · obtain ⟨σ, hσ⟩ := perm_exists_indexMap (canonicalKey_eq_iff.mp hks)
        obtain ⟨hm', hmap'⟩ := indexMap_moves hσ hm
        have hkeq : (x.applyMove m).canonicalKey =
            (s₀.applyMove ⟨σ m.fromBoxNumber, σ m.toBoxNumber⟩).canonicalKey :=
          canonicalKey_eq_iff.mpr (perm_of_indexMap hmap')
        rw [hkeq]
        exact hcov _ hm'
      · have hold : ∀ e ∈ (s₀, q₀) :: rest, e.1.canonicalKey ≠ x.canonicalKey := by
          intro e he
          rcases List.mem_cons.mp he with he | he
          · subst he
            exact fun hc => hks (hc.symm)
          · exact hq e (List.mem_append_left _ he)
        exact hvisv2 _ (inv.closure x hx hold m hm)
    · exfalso
      rw [List.mem_map] at hx
      obtain ⟨e, he, hke⟩ := hx
      exact hq e (List.mem_append_right _ he) hke
  -- every state reachable within the new frontier level is visited
  have hreachNew : ∀ x : State, ∀ π : List Move, LegalPath init π x →
      (∀ e ∈ rest ++ es, π.length ≤ e.2.length) → x.canonicalKey ∈ v2 := by
    intro x π hπ hle
    by_cases hqe : rest ++ es = []
    · -- empty new frontier: every reachable class is closed under moves
      clear hle
      have haux : ∀ n : Nat, ∀ π' : List Move, ∀ y : State, π'.length = n →
          LegalPath init π' y → y.canonicalKey ∈ v2 := by
        intro n
        induction n using Nat.strong_induction_on with
        | _ n ih =>
          intro π' y hlen hπ'
          by_cases hnil : π' = []
          · subst hnil
            rw [hπ'.nil_inv]
            exact hvisv2 _ inv.initKey
          · obtain ⟨π'', m', u, hdec, hπ'', hm', hu⟩ := hπ'.snoc_decomp hnil
            have hulen : π''.length < n := by
              subst hlen
              rw [hdec]
              simp
            have hukey : u.canonicalKey ∈ v2 := ih π''.length hulen π'' u rfl hπ''
            have := hclosNew u hukey (by rw [hqe]; simp) m' hm'
            rw [hu]
            exact this
      exact haux π.length π x rfl hπ
    · obtain ⟨f, hf⟩ := List.exists_mem_of_ne_nil _ hqe
      have hfle : f.2.length ≤ q₀.length + 1 := by
        rcases List.mem_append.mp hf with hf | hf
        · exact inv.tight f (List.mem_cons_of_mem _ hf) (s₀, q₀) hheadmem
        · rw [heslen f hf]
      have hπle : π.length ≤ q₀.length + 1 := le_trans (hle f hf) hfle
      by_cases hπd : π.length ≤ q₀.length
      · refine hvisv2 _ (inv.reached x π hπ ?_)
        intro g hg
        rcases List.mem_cons.mp hg with hg | hg
        · subst hg
          omega
        · have := hheadle g hg
          omega
      · -- π has length exactly q₀.length + 1
        have hπnil : π ≠ [] := by
          intro hc
          rw [hc] at hπd
          simp at hπd
        obtain ⟨π', m', y, hdec, hπ', hm', hy⟩ := hπ.snoc_decomp hπnil
        have hπ'len : π'.length = q₀.length := by
          have := congrArg List.length hdec
          simp only [List.length_append, List.length_singleton] at this
          omega
        have hykey : y.canonicalKey ∈ visited := by
          refine inv.reached y π' hπ' ?_
          intro g hg
          rcases List.mem_cons.mp hg with hg | hg
          · subst hg
            omega
          · have := hheadle g hg
            omega
        have hynotin : ∀ e ∈ rest ++ es, e.1.canonicalKey ≠ y.canonicalKey := by
          intro e he hc
          have hmin : e.2.length ≤ π'.length := by
            rcases List.mem_append.mp he with he' | he'
            · exact inv.minimal e (List.mem_cons_of_mem _ he') y π' hπ' hc.symm
            · exact hminNew e he' y π' hπ' hc.symm
          have hgood := hle e he
          omega
        have := hclosNew y (hvisv2 _ hykey) hynotin m' hm'
        rw [hy]
        exact this
  refine ⟨⟨?_, ?_, ?_, ?_, hclosNew, hreachNew, hvisv2 _ inv.initKey, ?_, ?_, ?_⟩, ?_⟩
  · -- sorted
    rw [List.pairwise_append]
    refine ⟨hsortedRest, ?_, ?_⟩
    · refine List.pairwise_of_forall_mem_list ?_
      intro a ha b hb
      rw [heslen a ha, heslen b hb]
    · intro a ha b hb
      rw [heslen b hb]
      have := inv.tight a (List.mem_cons_of_mem _ ha) (s₀, q₀) hheadmem
      omega
  · -- tight
    intro e he f hf
    rcases List.mem_append.mp he with he' | he' <;> rcases List.mem_append.mp hf with hf' | hf'
    · exact inv.tight e (List.mem_cons_of_mem _ he') f (List.mem_cons_of_mem _ hf')
    · rw [heslen f hf']
      have := inv.tight e (List.mem_cons_of_mem _ he') (s₀, q₀) hheadmem
      omega
    · rw [heslen e he']
      have := hheadle f hf'
      omega
    · rw [heslen e he', heslen f hf']
      omega
  · -- entries
    intro e he
    rcases List.mem_append.mp he with he' | he'
    · obtain ⟨h1, h2, h3⟩ := inv.entries e (List.mem_cons_of_mem _ he')
      exact ⟨h1, h2, hvisv2 _ h3⟩
    · obtain ⟨h1, h2, _⟩ := hesprops e he'
      exact ⟨h1, h2, hesmemv2 e he'⟩
  · -- minimal
    intro e he
    rcases List.mem_append.mp he with he' | he'
    · exact inv.minimal e (List.mem_cons_of_mem _ he')
    · exact hminNew e he'
  · -- reps
    intro k hk
    rw [hv2, List.mem_append] at hk
    rcases hk with hk | hk
    · exact inv.reps k hk
    · rw [List.mem_map] at hk
      obtain ⟨e, he, hke⟩ := hk
      obtain ⟨_, h2, h3⟩ := hesprops e he
      exact ⟨e.1, hke, h2, h3⟩
  · -- shapes
    intro e he
    rcases List.mem_append.mp he with he' | he'
    · exact inv.shapes e (List.mem_cons_of_mem _ he')
    · exact (hesprops e he').2.2
  · -- nodup
    exact hnd inv.nodupKeys
  · -- cardinality bookkeeping
    rw [hv2]
    simp

theorem step_inr {init s₀ : State} {q₀ : List Move} {rest : List QueueEntry}
    {visited : List (List Str)} {t : State} {p : List Move}
    (inv : LoopInv init ((s₀, q₀) :: rest) visited)
    (h : expandMoves s₀ q₀ s₀.moves visited [] = .inr (t, p)) :
    LegalPath init p t ∧ t.solved = true ∧ p.length = q₀.length + 1 ∧
      (∀ pstar : List Move, ∀ tstar : State, LegalPath init pstar tstar →
        tstar.solved = true → p.length ≤ pstar.length) := by
  obtain ⟨m, hm, ht, hp, hsolved⟩ := expand_found h
  have hheadmem : ((s₀, q₀) : QueueEntry) ∈ (s₀, q₀) :: rest :=
    List.mem_cons_self _ _
  have hpairlen : ((s₀, q₀) : QueueEntry).2.length = q₀.length := rfl
  obtain ⟨hpath0, hns0, hkey0⟩ := inv.entries _ hheadmem
  have hsorted := inv.sorted
  rw [List.pairwise_cons] at hsorted
  obtain ⟨hheadle, _⟩ := hsorted
  have hplen : p.length = q₀.length + 1 := by
    rw [hp]
    simp
  refine ⟨?_, hsolved, hplen, ?_⟩
  · rw [ht, hp]
    exact hpath0.append_move hm
  · intro pstar tstar hpstar hts
    obtain ⟨e, he, r, u, hr, hu, hr1, hbound⟩ := covering inv hpstar hts
    have hdle : q₀.length ≤ e.2.length := by
      rcases List.mem_cons.mp he with he' | he'
      · subst he'
        omega
      · exact hheadle e he'
    omega

/-! ## Finiteness of the reachable key space -/

theorem mem_allColors (c : Color) : c ∈ allColors := by
  cases c <;> simp [allColors]

theorem mem_allBoxes {L : Nat} {box : List Color} (h : box.length ≤ L) :
    box ∈ allBoxes L := by
  induction L generalizing box with
  | zero =>
    cases box with
    | nil => simp [allBoxes]
    | cons c cs => simp at h
  | succ L ih =>
    cases box with
    | nil => simp [allBoxes]
    | cons c cs =>
      rw [allBoxes]
      refine List.mem_cons_of_mem _ ?_
      rw [List.mem_flatMap]
      exact ⟨c, mem_allColors c, List.mem_map_of_mem _ (ih (by simpa using h))⟩

theorem mem_allStatesLen {n L : Nat} {s : State} (h1 : s.length = n)
    (h2 : ∀ box ∈ s, box.length ≤ L) : s ∈ allStatesLen n L := by
  induction n generalizing s with
  | zero =>
    rw [List.length_eq_zero] at h1
    subst h1
    simp [allStatesLen]
  | succ n ih =>
    cases s with
    | nil => simp at h1
    | cons box rest =>
      rw [allStatesLen, List.mem_flatMap]
      refine ⟨box, mem_allBoxes (h2 box (List.mem_cons_self _ _)), ?_⟩
      refine List.mem_map_of_mem _ (ih (by simpa using h1) ?_)
      intro b hb
      exact h2 b (List.mem_cons_of_mem _ hb)

theorem map_const_sum {α : Type} (l : List α) (b : Nat) :
    (l.map fun _ => b).sum = l.length * b := by
  induction l with
  | nil => simp
  | cons x xs ih =>
    simp only [List.map_cons, List.sum_cons, List.length_cons, ih]
    ring

theorem length_allBoxes (L : Nat) : (allBoxes L).length = boxCount L := by
  induction L with
  | zero => rfl
  | succ L ih =>
    rw [allBoxes, boxCount]
    simp only [List.length_cons, List.length_flatMap, Function.comp_def,
      List.length_map]
    rw [map_const_sum, ih]
    rw [show allColors.length = 15 from rfl]

theorem length_allStatesLen (n L : Nat) :
    (allStatesLen n L).length = boxCount L ^ n := by
  induction n with
  | zero => rfl
  | succ n ih =>
    rw [allStatesLen]
    simp only [List.length_flatMap, Function.comp_def, List.length_map]
    rw [map_const_sum, ih, length_allBoxes, pow_succ]
    ring

theorem shape_boxes {n L : Nat} {s : State} (h : StateShape n L s) :
    ∀ box ∈ s, box.length ≤ L := by
  intro box hbox
  obtain ⟨i, hi, hieq⟩ := List.mem_iff_getElem.mp hbox
  have h2 := h.2 i
  rw [List.getD_eq_getElem?_getD, List.getElem?_eq_getElem hi, Option.getD_some,
    hieq] at h2
  exact h2

theorem visited_le_keyBound {init : State} {queue : List QueueEntry}
    {visited : List (List Str)} (inv : LoopInv init queue visited) :
    visited.length ≤ keyBound init := by
  have hsub : ∀ k ∈ visited,
      k ∈ (allStatesLen init.length (boxCap init)).map State.canonicalKey := by
    intro k hk
    obtain ⟨x, hxk, _, hxshape⟩ := inv.reps k hk
    rw [← hxk]
    exact List.mem_map_of_mem _ (mem_allStatesLen hxshape.1 (shape_boxes hxshape))
  calc visited.length = visited.toFinset.card :=
        (List.toFinset_card_of_nodup inv.nodupKeys).symm
    _ ≤ ((allStatesLen init.length (boxCap init)).map State.canonicalKey).toFinset.card := by
        refine Finset.card_le_card ?_
        intro k hk
        exact List.mem_toFinset.mpr (hsub k (List.mem_toFinset.mp hk))
    _ ≤ ((allStatesLen init.length (boxCap init)).map State.canonicalKey).length :=
        List.toFinset_card_le _
    _ = keyBound init := by
        rw [List.length_map, length_allStatesLen, keyBound]

/-! ## Totality and correctness of the search loop -/

theorem bfsLoop_total {init : State} :
    ∀ fuel : Nat, ∀ queue : List QueueEntry, ∀ visited : List (List Str),
    ∀ processed : Nat,
    LoopInv init queue visited →
    queue.length + (keyBound init + 1 - visited.length) ≤ fuel →
    ∃ r, bfsLoop init fuel queue visited processed = some r := by
  intro fuel
  induction fuel with
  | zero =>
    intro queue visited processed inv hfuel
    exfalso
    have hv := visited_le_keyBound inv
    omega
  | succ fuel ih =>
    intro queue visited processed inv hfuel
    cases queue with
    | nil => exact ⟨_, by rw [bfsLoop]⟩
    | cons head rest =>
      obtain ⟨st, path⟩ := head
      cases hexp : expandMoves st path st.moves visited [] with
      | inr tp =>
        refine ⟨⟨tp.1, some tp.2, ⟨processed + 1, tp.2.length⟩⟩, ?_⟩
        rw [bfsLoop, hexp]
      | inl va =>
        obtain ⟨v2, es⟩ := va
        obtain ⟨inv', hcard⟩ := step_inl inv hexp
        have hv2 := visited_le_keyBound inv'
        obtain ⟨r, hr⟩ := ih (rest ++ es) v2 (processed + 1) inv' (by
          simp only [List.length_append, List.length_cons] at hfuel ⊢
          omega)
        refine ⟨r, ?_⟩
        rw [bfsLoop, hexp]
        exact hr

theorem bfsLoop_spec {init : State} :
    ∀ fuel : Nat, ∀ queue : List QueueEntry, ∀ visited : List (List Str),
    ∀ processed : Nat, ∀ r : SolveResult,
    LoopInv init queue visited →
    bfsLoop init fuel queue visited processed = some r →
    (∀ ms, r.moves = some ms → LegalPath init ms r.finalState ∧
      r.finalState.solved = true ∧ r.stats.solutionLength = ms.length ∧
      (∀ pstar : List Move, ∀ tstar : State, LegalPath init pstar tstar →
        tstar.solved = true → ms.length ≤ pstar.length)) ∧
    (r.moves = none → r.finalState = init ∧ r.stats.solutionLength = 0 ∧
      (∀ x : State, ∀ π : List Move, LegalPath init π x → x.solved = false)) := by
  intro fuel
  induction fuel with
  | zero =>
    intro queue visited processed r inv hrun
    rw [bfsLoop] at hrun
    exact absurd hrun (by simp)
  | succ fuel ih =>
    intro queue visited processed r inv hrun
    cases queue with
    | nil =>
      rw [bfsLoop] at hrun
      have hr := Option.some.inj hrun
      subst hr
      constructor
      · intro ms hms
        simp at hms
      · intro _
        refine ⟨rfl, rfl, ?_⟩
        intro x π hπ
        have hx : x.canonicalKey ∈ visited :=
          inv.reached x π hπ (by intro e he; simp at he)
        obtain ⟨y, hyk, hyns, _⟩ := inv.reps _ hx
        have hperm : y.Perm x := canonicalKey_eq_iff.mp hyk
        rw [← perm_solved hperm]
        exact hyns
    | cons head rest =>
      obtain ⟨st, path⟩ := head
      rw [bfsLoop] at hrun
      cases hexp : expandMoves st path st.moves visited [] with
      | inr tp =>
        rw [hexp] at hrun
        have hr := Option.some.inj hrun
        subst hr
        obtain ⟨hpath, hsolved, hplen, hbound⟩ := step_inr inv hexp
        constructor
        · intro ms hms
          have hms' : tp.2 = ms := Option.some.inj hms
          subst hms'
          exact ⟨hpath, hsolved, rfl, hbound⟩
        · intro hnone
          simp at hnone
      | inl va =>
        obtain ⟨v2, es⟩ := va
        rw [hexp] at hrun
        obtain ⟨inv', _⟩ := step_inl inv hexp
        exact ih (rest ++ es) v2 (processed + 1) r inv' hrun

theorem bfsLoop_processed {init : State} :
    ∀ fuel : Nat, ∀ queue : List QueueEntry, ∀ visited : List (List Str),
    ∀ processed : Nat, ∀ r : SolveResult,
    bfsLoop init fuel queue visited processed = some r →
    r.stats.statesProcessed = processed + bfsDequeues fuel queue visited := by
  intro fuel
  induction fuel with
  | zero =>
    intro queue visited processed r hrun
    rw [bfsLoop] at hrun
    exact absurd hrun (by simp)
  | succ fuel ih =>
    intro queue visited processed r hrun
    cases queue with
    | nil =>
      rw [bfsLoop] at hrun
      have hr := Option.some.inj hrun
      subst hr
      rw [bfsDequeues]
      rfl
    | cons head rest =>
      obtain ⟨st, path⟩ := head
      rw [bfsLoop] at hrun
      rw [bfsDequeues]
      cases hexp : expandMoves st path st.moves visited [] with
      | inr tp =>
        obtain ⟨t, p⟩ := tp
        rw [hexp] at hrun
        have hr := Option.some.inj hrun
        subst hr
        rfl
      | inl va =>
        obtain ⟨v2, es⟩ := va
        rw [hexp] at hrun
        have := ih (rest ++ es) v2 (processed + 1) r hrun
        show r.stats.statesProcessed = processed + (1 + bfsDequeues fuel (rest ++ es) v2)
        omega

/-! ## Top-level properties of `solve` -/

theorem solveOpt_isSome (init : State) : ∃ r, solveOpt init = some r := by
  unfold solveOpt
  by_cases h : init.solved = true
  · rw [if_pos h]
    exact ⟨_, rfl⟩
  · rw [if_neg h]
    have hns : init.solved = false := by rwa [Bool.not_eq_true] at h
    refine bfsLoop_total (fuelBound init) _ _ 0 (loopInv_init hns) ?_
    rw [fuelBound]
    simp only [List.length_cons, List.length_nil, List.length_singleton]
    rw [keyBound]
    omega

theorem solveOpt_eq_solve (init : State) : solveOpt init = some (solve init) := by
  obtain ⟨r, hr⟩ := solveOpt_isSome init
  rw [solve, hr]
  rfl

theorem solve_fastpath {init : State} (h : init.solved = true) :
    solve init = ⟨init, some [], ⟨0, 0⟩⟩ := by
  rw [solve, solveOpt, if_pos h]
  rfl

theorem solve_loop_run {init : State} (h : ¬init.solved = true) :
    bfsLoop init (fuelBound init) [(init, [])] [init.canonicalKey] 0 =
      some (solve init) := by
  have heq := solveOpt_eq_solve init
  rwa [solveOpt, if_neg h] at heq

theorem solve_spec (init : State) :
    (∀ ms, (solve init).moves = some ms →
      LegalPath init ms (solve init).finalState ∧
      (solve init).finalState.solved = true ∧
      (solve init).stats.solutionLength = ms.length ∧
      (∀ pstar : List Move, ∀ tstar : State, LegalPath init pstar tstar →
        tstar.solved = true → ms.length ≤ pstar.length)) ∧
    ((solve init).moves = none → (solve init).finalState = init ∧
      (solve init).stats.solutionLength = 0 ∧
      (∀ x : State, ∀ π : List Move, LegalPath init π x → x.solved = false)) := by
  by_cases h : init.solved = true
  · rw [solve_fastpath h]
    constructor
    · intro ms hms
      have hms' : ms = [] := by
        simpa using hms.symm
      subst hms'
      exact ⟨LegalPath.nil _, h, rfl, fun _ _ _ _ => Nat.zero_le _⟩
    · intro hnone
      simp at hnone
  · have hns : init.solved = false := by rwa [Bool.not_eq_true] at h
    exact bfsLoop_spec (fuelBound init) _ _ 0 (solve init) (loopInv_init hns)
      (solve_loop_run h)

theorem solve_complete {init : State} {p : List Move} {t : State}
    (hp : LegalPath init p t) (ht : t.solved = true) :
    ∃ ms, (solve init).moves = some ms ∧ ms.length ≤ p.length := by
  cases hms : (solve init).moves with
  | none =>
    have hcontra := ((solve_spec init).2 hms).2.2 t p hp
    rw [ht] at hcontra
    simp at hcontra
  | some ms =>
    have hb := ((solve_spec init).1 ms hms).2.2.2 p t hp ht
    exact ⟨ms, rfl, hb⟩

theorem solve_processed (init : State) :
    (solve init).stats.statesProcessed = totalDequeues init := by
  by_cases h : init.solved = true
  · rw [solve_fastpath h, totalDequeues, if_pos h]
  · have hp := bfsLoop_processed (fuelBound init) [(init, [])] [init.canonicalKey] 0
      (solve init) (solve_loop_run h)
    rw [totalDequeues, if_neg h]
    omega

/-! ## Concrete end-to-end instance -/

theorem legalPathChecker_sound : ∀ p : List Move, ∀ s t : State,
    legalPathChecker s p = some t → LegalPath s p t := by
  intro p
  induction p with
  | nil =>
    intro s t h
    rw [legalPathChecker] at h
    have := Option.some.inj h
    subst this
    exact LegalPath.nil _
  | cons m ms ih =>
    intro s t h
    rw [legalPathChecker] at h
    split at h
    · exact LegalPath.cons (by assumption) (ih _ _ h)
    · simp at h

theorem example_path : LegalPath exampleInit exampleMoves exampleFinal :=
  legalPathChecker_sound _ _ _ (by decide)

theorem example_final_solved : exampleFinal.solved = true := by decide

/-! ## Validation lemmas for the string-level constructor -/

theorem validateBox_none_iff {box : List Str} :
    validateBox box = none ↔ ∀ ball ∈ box, ball ∈ validColorStrings := by
  induction box with
  | nil => simp [validateBox]
  | cons b rest ih =>
    rw [validateBox]
    split
    · rename_i hb
      rw [ih]
      constructor
      · intro h ball hball
        rcases List.mem_cons.mp hball with h' | h'
        · subst h'
          exact hb
        · exact h ball h'
      · intro h ball hball
        exact h ball (List.mem_cons_of_mem _ hball)
    · rename_i hb
      constructor
      · intro h
        simp at h
      · intro h
        exact absurd (h b (List.mem_cons_self _ _)) hb

theorem validateBox_some {box : List Str} {ball : Str}
    (h : validateBox box = some ball) : ball ∈ box ∧ ball ∉ validColorStrings := by
  induction box with
  | nil => simp [validateBox] at h
  | cons b rest ih =>
    rw [validateBox] at h
    split at h
    · obtain ⟨h1, h2⟩ := ih h
      exact ⟨List.mem_cons_of_mem _ h1, h2⟩
    · rename_i hb
      have := Option.some.inj h
      subst this
      exact ⟨List.mem_cons_self _ _, hb⟩

theorem validateBoxes_none_iff {boxes : List (List Str)} :
    validateBoxes boxes = none ↔
      ∀ box ∈ boxes, ∀ ball ∈ box, ball ∈ validColorStrings := by
  induction boxes with
  | nil => simp [validateBoxes]
  | cons box rest ih =>
    rw [validateBoxes]
    cases hv : validateBox box with
    | some ball =>
      constructor
      · intro h
        simp at h
      · intro h
        obtain ⟨h1, h2⟩ := validateBox_some hv
        exact absurd (h box (List.mem_cons_self _ _) ball h1) h2
    | none =>
      rw [ih]
      constructor
      · intro h bx hbx ball hball
        rcases List.mem_cons.mp hbx with h' | h'
        · subst h'
          exact validateBox_none_iff.mp hv ball hball
        · exact h bx h' ball hball
      · intro h bx hbx ball hball
        exact h bx (List.mem_cons_of_mem _ hbx) ball hball

theorem validateBoxes_some {boxes : List (List Str)} {ball : Str}
    (h : validateBoxes boxes = some ball) :
    (∃ box ∈ boxes, ball ∈ box) ∧ ball ∉ validColorStrings := by
  induction boxes with
  | nil => simp [validateBoxes] at h
  | cons box rest ih =>
    rw [validateBoxes] at h
    cases hv : validateBox box with
    | some b =>
      rw [hv] at h
      have := Option.some.inj h
      subst this
      obtain ⟨h1, h2⟩ := validateBox_some hv
      exact ⟨⟨box, List.mem_cons_self _ _, h1⟩, h2⟩
    | none =>
      rw [hv] at h
      obtain ⟨⟨bx, hbx, hball⟩, h2⟩ := ih h
      exact ⟨⟨bx, List.mem_cons_of_mem _ hbx, hball⟩, h2⟩

/-! ## Claim theorems -/

/-- C1: whenever `solve` returns a non-null move list, each move is legal on
the state reached by the preceding moves (`LegalPath`), folding `applyMove`
over the list from the initial state yields exactly the returned final
state, that final state is solved, and `solutionLength` equals the length
of the move list; moreover `solve` solves the 4-colors-plus-2-empties
example instance (its move list is non-null). -/
theorem C1_solve_sound :
    (∀ init : State, ∀ ms : List Move, (solve init).moves = some ms →
      LegalPath init ms (solve init).finalState ∧
      List.foldl State.applyMove init ms = (solve init).finalState ∧
      (solve init).finalState.solved = true ∧
      (solve init).stats.solutionLength = ms.length) ∧
    (solve exampleInit).moves ≠ none := by
  constructor
  · intro init ms hms
    obtain ⟨h1, h2, h3, _⟩ := (solve_spec init).1 ms hms
    exact ⟨h1, h1.foldl_eq, h2, h3⟩
  · obtain ⟨ms, hms, _⟩ := solve_complete example_path example_final_solved
    rw [hms]
    simp

/-- Witness for C1 on a small concrete instance that the kernel can run. -/
theorem C1_solve_sound_witness :
    LegalPath [[Color.Re, Color.Re, Color.Re], [Color.Re]] [⟨1, 0⟩]
      (solve [[Color.Re, Color.Re, Color.Re], [Color.Re]]).finalState ∧
    (solve [[Color.Re, Color.Re, Color.Re], [Color.Re]]).stats.solutionLength = 1 := by
  have h := C1_solve_sound.1 [[Color.Re, Color.Re, Color.Re], [Color.Re]] [⟨1, 0⟩]
    (by decide)
  exact ⟨h.1, h.2.2.2⟩

/-- C2: a returned move list has minimum length among all legal move
sequences from the initial state to any solved state. -/
theorem C2_solve_optimal (init : State) (ms : List Move)
    (hms : (solve init).moves = some ms) :
    ∀ p : List Move, ∀ t : State, LegalPath init p t → t.solved = true →
      ms.length ≤ p.length :=
  ((solve_spec init).1 ms hms).2.2.2

/-- Witness for C2 at a concrete one-move instance. -/
theorem C2_solve_optimal_witness :
    ([⟨1, 0⟩] : List Move).length ≤ ([⟨1, 0⟩] : List Move).length :=
  C2_solve_optimal [[Color.Re, Color.Re, Color.Re], [Color.Re]] [⟨1, 0⟩]
    (by decide) [⟨1, 0⟩] [[Color.Re, Color.Re, Color.Re, Color.Re], []]
    (LegalPath.cons (by decide) (LegalPath.nil _)) (by decide)

/-- C3: `equivalentTo` agrees with canonical-key equality, and canonical
keys are equal exactly when the multisets of per-box content sequences are
equal (collision-freedom and permutation-invariance). -/
theorem C3_canonicalKey (a b : State) :
    (a.equivalentTo b = true ↔ a.canonicalKey = b.canonicalKey) ∧
    (a.canonicalKey = b.canonicalKey ↔
      (↑a : Multiset (List Color)) = (↑b : Multiset (List Color))) := by
  refine ⟨equivalentTo_iff_key, ?_⟩
  rw [canonicalKey_eq_iff]
  exact Multiset.coe_eq_coe.symm

/-- Witness for C3: swapping two boxes is detected as equivalent. -/
theorem C3_canonicalKey_witness :
    State.equivalentTo [[Color.Re], [Color.Ye]] [[Color.Ye], [Color.Re]] = true :=
  ((C3_canonicalKey [[Color.Re], [Color.Ye]] [[Color.Ye], [Color.Re]]).1).mpr
    (((C3_canonicalKey [[Color.Re], [Color.Ye]] [[Color.Ye], [Color.Re]]).2).mpr
      (by
        rw [Multiset.coe_eq_coe]
        exact List.Perm.swap [Color.Ye] [Color.Re] []))

/-- C4: a state is solved iff every box is empty or holds exactly 4 balls
of one color, and every color occurring occurs exactly 4 times in total. -/
theorem C4_solved_iff (s : State) :
    s.solved = true ↔
      (∀ box ∈ s, box = [] ∨ (box.length = 4 ∧ ∃ c, ∀ b ∈ box, b = c)) ∧
      (∀ c, c ∈ s.flatten → s.flatten.count c = 4) :=
  solved_iff

/-- Witness for C4 on a concrete solved state. -/
theorem C4_solved_iff_witness :
    State.solved [[Color.Re, Color.Re, Color.Re, Color.Re], []] = true :=
  (C4_solved_iff [[Color.Re, Color.Re, Color.Re, Color.Re], []]).mpr (by decide)

/-- C5: `moves` returns exactly the pairs (source, destination) with
source ≠ destination, non-empty source, destination below capacity 4, and
destination empty or matching top color; ordered lexicographically with the
source index as the outer key. -/
theorem C5_moves_spec (s : State) :
    (∀ m : Move, m ∈ s.moves ↔
      m.fromBoxNumber < s.length ∧ m.toBoxNumber < s.length ∧
      m.fromBoxNumber ≠ m.toBoxNumber ∧
      s.getD m.fromBoxNumber [] ≠ [] ∧
      (s.getD m.toBoxNumber []).length < 4 ∧
      (s.getD m.toBoxNumber [] = [] ∨
        (s.getD m.toBoxNumber []).getLast? =
          (s.getD m.fromBoxNumber []).getLast?)) ∧
    List.Pairwise moveLt s.moves :=
  ⟨fun _ => mem_moves_iff, moves_pairwise s⟩

/-- Witness for C5 at a concrete state and move. -/
theorem C5_moves_spec_witness :
    (⟨0, 2⟩ : Move) ∈ State.moves [[Color.Re], [Color.Ye], []] :=
  ((C5_moves_spec [[Color.Re], [Color.Ye], []]).1 ⟨0, 2⟩).mpr (by decide)

/-- C6: constructing a `State` throws exactly when some ball value is
outside the 15-color enumeration; the error message names the offending
value; construction from recognized colors alone succeeds and returns the
input unchanged (no coercion or substitution). -/
theorem C6_construction (boxes : List (List Str)) :
    ((∃ msg, mkState boxes = .error msg) ↔
      ∃ box ∈ boxes, ∃ ball ∈ box, ball ∉ validColorStrings) ∧
    (∀ msg, mkState boxes = .error msg →
      ∃ ball, msg = invalidColorMsg ball ∧ ball ∉ validColorStrings ∧
        ∃ box ∈ boxes, ball ∈ box) ∧
    ((∀ box ∈ boxes, ∀ ball ∈ box, ball ∈ validColorStrings) →
      mkState boxes = .ok boxes) := by
  refine ⟨⟨?_, ?_⟩, ?_, ?_⟩
  · rintro ⟨msg, hmsg⟩
    rw [mkState] at hmsg
    cases hv : validateBoxes boxes with
    | none =>
      rw [hv] at hmsg
      simp at hmsg
    | some ball =>
      obtain ⟨⟨box, hbox, hball⟩, hnv⟩ := validateBoxes_some hv
      exact ⟨box, hbox, ball, hball, hnv⟩
  · rintro ⟨box, hbox, ball, hball, hnv⟩
    rw [mkState]
    cases hv : validateBoxes boxes with
    | none =>
      exact absurd (validateBoxes_none_iff.mp hv box hbox ball hball) hnv
    | some b => exact ⟨invalidColorMsg b, rfl⟩
  · intro msg hmsg
    rw [mkState] at hmsg
    cases hv : validateBoxes boxes with
    | none =>
      rw [hv] at hmsg
      simp at hmsg
    | some ball =>
      rw [hv] at hmsg
      obtain ⟨⟨box, hbox, hball⟩, hnv⟩ := validateBoxes_some hv
      have hmsg' := Except.error.inj hmsg
      exact ⟨ball, hmsg'.symm, hnv, box, hbox, hball⟩
  · intro h
    rw [mkState, validateBoxes_none_iff.mpr h]

/-- Witness for C6: an all-recognized input constructs unchanged. -/
theorem C6_construction_witness :
    mkState [[['R', 'e'], ['Y', 'e']]] = .ok [[['R', 'e'], ['Y', 'e']]] :=
  (C6_construction [[['R', 'e'], ['Y', 'e']]]).2.2 (by decide)

/-- C7: on an initial state from which no solved state is reachable,
`solve` returns normally with the initial state, a null move list, zero
solution length, and `statesProcessed` equal to the number of dequeues. -/
theorem C7_unsolvable (init : State)
    (h : ∀ x : State, ∀ π : List Move, LegalPath init π x → x.solved = false) :
    (solve init).finalState = init ∧ (solve init).moves = none ∧
    (solve init).stats.solutionLength = 0 ∧
    (solve init).stats.statesProcessed = totalDequeues init := by
  have hnone : (solve init).moves = none := by
    cases hms : (solve init).moves with
    | none => rfl
    | some ms =>
      obtain ⟨hpath, hsolved, _, _⟩ := (solve_spec init).1 ms hms
      have hfalse := h (solve init).finalState ms hpath
      rw [hsolved] at hfalse
      simp at hfalse
  obtain ⟨h1, h2, _⟩ := (solve_spec init).2 hnone
  exact ⟨h1, hnone, h2, solve_processed init⟩

/-- Witness for C7 on the concrete deadlocked instance `[[Re],[Ye]]`. -/
theorem C7_unsolvable_witness :
    (solve [[Color.Re], [Color.Ye]]).moves = none ∧
    (solve [[Color.Re], [Color.Ye]]).stats.statesProcessed = 1 := by
  have hyp : ∀ x : State, ∀ π : List Move,
      LegalPath [[Color.Re], [Color.Ye]] π x → x.solved = false := by
    intro x π hπ
    cases hπ with
    | nil => decide
    | cons hm _ =>
      have hmv : State.moves [[Color.Re], [Color.Ye]] = [] := by decide
      rw [hmv] at hm
      simp at hm
  have h := C7_unsolvable [[Color.Re], [Color.Ye]] hyp
  refine ⟨h.2.1, ?_⟩
  rw [h.2.2.2]
  decide

/-- C8 counterexample: the illegal move (1,0) onto a full destination box
is silently performed by `applyMove` — validation never checks capacity —
yielding a state whose destination box holds 5 balls, with no error. -/
theorem C8_applyMove_counterexample :
    (⟨1, 0⟩ : Move) ∉
      State.moves [[Color.Re, Color.Re, Color.Re, Color.Re], [Color.Ye]] ∧
    State.applyMoveChecked [[Color.Re, Color.Re, Color.Re, Color.Re], [Color.Ye]]
      ⟨1, 0⟩ = .ok [[Color.Re, Color.Re, Color.Re, Color.Re, Color.Ye], []] ∧
    ((State.applyMove [[Color.Re, Color.Re, Color.Re, Color.Re], [Color.Ye]]
      ⟨1, 0⟩).getD 0 []).length = 5 :=
  ⟨by decide, rfl, by decide⟩

/-- C8 amended: for in-range box indices, `applyMove` fails loudly — with
the constructor's validation error naming `undefined` — exactly when the
source box is empty; every other illegal move (full destination, equal
indices, or mismatched top colors) silently returns the moved state. -/
theorem C8_applyMove_amended (s : State) (m : Move)
    (hfrom : m.fromBoxNumber < s.length) (hto : m.toBoxNumber < s.length) :
    (s.applyMoveChecked m = .error (invalidColorMsg "undefined".toList) ↔
      s.getD m.fromBoxNumber [] = []) ∧
    (s.getD m.fromBoxNumber [] ≠ [] →
      s.applyMoveChecked m = .ok (s.applyMove m)) := by
  constructor
  · constructor
    · intro h
      by_contra hne
      obtain ⟨b, hb⟩ := getLast?_some_of_ne_nil hne
      unfold State.applyMoveChecked at h
      rw [hb] at h
      simp at h
    · intro h
      unfold State.applyMoveChecked
      rw [h]
      rfl
  · intro hne
    obtain ⟨b, hb⟩ := getLast?_some_of_ne_nil hne
    unfold State.applyMoveChecked
    rw [hb]

/-- Witness for the amended C8: empty source throws, full destination does
not. -/
theorem C8_applyMove_amended_witness :
    State.applyMoveChecked [[], [Color.Ye]] ⟨0, 1⟩ =
      .error (invalidColorMsg "undefined".toList) ∧
    State.applyMoveChecked [[Color.Ye], [Color.Re, Color.Re, Color.Re, Color.Re]]
      ⟨0, 1⟩ = .ok (State.applyMove
        [[Color.Ye], [Color.Re, Color.Re, Color.Re, Color.Re]] ⟨0, 1⟩) := by
  constructor
  · exact (C8_applyMove_amended [[], [Color.Ye]] ⟨0, 1⟩ (by decide)
      (by decide)).1.mpr (by decide)
  · exact (C8_applyMove_amended [[Color.Ye], [Color.Re, Color.Re, Color.Re, Color.Re]]
      ⟨0, 1⟩ (by decide) (by decide)).2 (by decide)

/-- C9: the current solver's `fromTopDown` returns the input containers
element-for-element unchanged (no per-container reversal) and is
extensionally equal to invoking the `State` constructor directly. -/
theorem C9_fromTopDown (boxes : List (List Color)) :
    fromTopDown boxes = boxes ∧ fromTopDown boxes = stateMk boxes := by
  constructor
  · rw [fromTopDown]
    exact List.map_id' boxes
  · rfl

/-- C10: `solve` terminates on every initial state: the fuel bound derived
from the finite canonical-key space is never exhausted, so the search loop
returns a result. -/
theorem C10_solve_terminates (init : State) :
    ∃ r : SolveResult, solveOpt init = some r ∧ solve init = r := by
  obtain ⟨r, hr⟩ := solveOpt_isSome init
  refine ⟨r, hr, ?_⟩
  rw [solve, hr]
  rfl
